import Mathlib

/-!
Shallow embedding of the core of `gwm/gwm.py` (github_workflow_manager):
manifest loading (`load_workflows`), language detection
(`determine_language`), repository scanning (`find_repositories`,
`find_existing_workflows`) and the matcher (`determine_operations`).

Filesystem paths are modelled as lists of components, with `p / q`
modelled as list append.  The filesystem itself is passed in explicitly:
a boolean predicate for file existence (used by `Workflow.validate`),
and explicit directory listings for the scanner.
-/

namespace Gwm

/-- A filesystem path, as a list of components; pathlib's `/` is `++`. -/
abbrev Path := List String

/-- The constant `_WORKFLOW_PATH = ".github/workflows"` of gwm.py. -/
def WORKFLOW_PATH : Path := [".github", "workflows"]

/-- The `LANGUAGES` registry of gwm.py: language tag to recognized
file extensions. -/
def LANGUAGES : List (String × List String) :=
  [("python", [".py"]),
   ("c++", [".cpp", ".hpp", ".hxx"]),
   ("markdown", [".md", ".markdown"]),
   ("rst", [".rst"]),
   ("lua", [".lua"])]

/-- A TOML value that is either a scalar or a list (the two shapes
`as_list` accepts). -/
inductive TomlItem (α : Type) where
  | scalar : α → TomlItem α
  | list : List α → TomlItem α
deriving DecidableEq

/-- `as_list` of gwm.py: wrap a scalar into a singleton list, keep a
list as is. -/
def as_list {α : Type} : TomlItem α → List α
  | TomlItem.scalar x => [x]
  | TomlItem.list xs => xs

/-- The `Workflow` named tuple of gwm.py. -/
structure Workflow where
  name : String
  parent_dir : Path
  files : List Path
  languages : List String
deriving DecidableEq

/-- The `Repository` named tuple of gwm.py. -/
structure Repository where
  path : Path
  languages : List String
  workflows : List String
deriving DecidableEq

/-- `determine_operations` of gwm.py, mirroring the nested loops:
for each repository, for each index key contained in
`repo.languages + ["*"]`, for each workflow in that bucket, for each of
its files, append one `(source, destination)` pair. -/
def determine_operations (repositories : List Repository)
    (workflows_per_language : List (String × List Workflow)) :
    List (Path × Path) :=
  repositories.foldl
    (fun operations repo =>
      (workflows_per_language.filter
          (fun p => decide (p.1 ∈ repo.languages ++ ["*"]))).foldl
        (fun ops1 p =>
          p.2.foldl
            (fun ops2 wf =>
              wf.files.foldl
                (fun ops3 wf_file =>
                  ops3 ++ [(wf.parent_dir ++ wf_file,
                            repo.path ++ WORKFLOW_PATH ++ wf_file)])
                ops2)
            ops1)
        operations)
    []

/-- The matcher as the spec words it: for every repository, for every
language tag that appears in the index and is either detected in the
repository or the wildcard, for every workflow under that tag and every
of its files, one operation; relative file paths are appended whole
under the destination workflow directory. -/
def spec_determine_operations (repositories : List Repository)
    (workflows_per_language : List (String × List Workflow)) :
    List (Path × Path) :=
  repositories.flatMap (fun repo =>
    (workflows_per_language.filter
        (fun p => decide (p.1 ∈ repo.languages ∨ p.1 = "*"))).flatMap (fun p =>
      p.2.flatMap (fun wf =>
        wf.files.map (fun wf_file =>
          (wf.parent_dir ++ wf_file,
           repo.path ++ WORKFLOW_PATH ++ wf_file)))))

theorem foldl_append_singleton {α β : Type} (g : α → β) (l : List α) :
    ∀ init : List β,
      l.foldl (fun acc x => acc ++ [g x]) init = init ++ l.map g := by
  induction l with
  | nil => intro init; simp
  | cons x xs ih => intro init; simp [ih]

theorem foldl_append_chunks {α β : Type} (g : α → List β) (l : List α) :
    ∀ init : List β,
      l.foldl (fun acc x => acc ++ g x) init = init ++ l.flatMap g := by
  induction l with
  | nil => intro init; simp
  | cons x xs ih => intro init; simp [ih]

theorem det_ops_eq_spec (repositories : List Repository)
    (wpl : List (String × List Workflow)) :
    determine_operations repositories wpl =
      spec_determine_operations repositories wpl := by
  unfold determine_operations spec_determine_operations
  have hfilter : ∀ repo : Repository,
      wpl.filter (fun p => decide (p.1 ∈ repo.languages ++ ["*"])) =
      wpl.filter (fun p => decide (p.1 ∈ repo.languages ∨ p.1 = "*")) := by
    intro repo
    apply List.filter_congr
    intro p _
    simp [List.mem_append]
  simp only [hfilter, foldl_append_singleton, foldl_append_chunks]
  simp

/-- An entry of a directory listing: its name, whether it is a regular
file, and its extension (pathlib's suffix, the empty string when there
is none). -/
structure FSEntry where
  name : String
  isFile : Bool
  suffix : String
deriving DecidableEq

/-- The loop of `determine_language` of gwm.py over the recursively
enumerated directory entries (non-files are skipped by the generator).
The inner loop over `list(check_langs.keys())` with `del` appends every
still pending language matched by the file suffix and removes it from
`check_langs`; the walk breaks once `check_langs` is empty. -/
def determine_language_aux :
    List (String × List String) → List FSEntry → List String
  | _, [] => []
  | check_langs, f :: rest =>
    if f.isFile = false then determine_language_aux check_langs rest
    else if check_langs = [] then []
    else
      ((check_langs.filter (fun p => decide (f.suffix ∈ p.2))).map Prod.fst)
        ++ determine_language_aux
            (check_langs.filter (fun p => !decide (f.suffix ∈ p.2))) rest

/-- `determine_language` of gwm.py: detect languages in the given
directory (modelled by the list of entries its recursive walk yields)
against the global `LANGUAGES` registry. -/
def determine_language (dir_files : List FSEntry) : List String :=
  determine_language_aux LANGUAGES dir_files

theorem mem_determine_language_aux (l : String) :
    ∀ (dir_files : List FSEntry)
      (check_langs : List (String × List String)),
      l ∈ determine_language_aux check_langs dir_files ↔
        ∃ p, p ∈ check_langs ∧ p.1 = l ∧
          ∃ f, f ∈ dir_files ∧ f.isFile = true ∧ f.suffix ∈ p.2 := by
  intro dir_files
  induction dir_files with
  | nil => intro check_langs; simp [determine_language_aux]
  | cons f rest ih =>
    intro check_langs
    by_cases hf : f.isFile = false
    · rw [determine_language_aux, if_pos hf, ih]
      constructor
      · rintro ⟨p, hp, hpl, f2, hf2, hff, hsuf⟩
        exact ⟨p, hp, hpl, f2, List.mem_cons_of_mem f hf2, hff, hsuf⟩
      · rintro ⟨p, hp, hpl, f2, hf2, hff, hsuf⟩
        rcases List.mem_cons.mp hf2 with heq | hmem
        · subst heq; rw [hf] at hff; cases hff
        · exact ⟨p, hp, hpl, f2, hmem, hff, hsuf⟩
    · have hft : f.isFile = true := by
        cases h2 : f.isFile
        · exact absurd h2 hf
        · rfl
      by_cases hc : check_langs = []
      · subst hc
        rw [determine_language_aux, if_neg hf, if_pos rfl]
        simp
      · rw [determine_language_aux, if_neg hf, if_neg hc,
          List.mem_append, ih]
        constructor
        · rintro (hdet | ⟨p, hp, hpl, f2, hf2, hff, hsuf⟩)
          · rcases List.mem_map.mp hdet with ⟨p, hp, hpl⟩
            refine ⟨p, (List.mem_filter.mp hp).1, hpl, f,
              List.mem_cons_self f rest, hft, ?_⟩
            simpa using (List.mem_filter.mp hp).2
          · exact ⟨p, (List.mem_filter.mp hp).1, hpl, f2,
              List.mem_cons_of_mem f hf2, hff, hsuf⟩
        · rintro ⟨p, hp, hpl, f2, hf2, hff, hsuf⟩
          by_cases hm : f.suffix ∈ p.2
          · exact Or.inl (List.mem_map.mpr
              ⟨p, List.mem_filter.mpr ⟨hp, by simpa using hm⟩, hpl⟩)
          · rcases List.mem_cons.mp hf2 with heq | hmem
            · subst heq; exact absurd hsuf hm
            · exact Or.inr ⟨p, List.mem_filter.mpr ⟨hp, by simpa using hm⟩,
                hpl, f2, hmem, hff, hsuf⟩

theorem nodup_determine_language_aux :
    ∀ (dir_files : List FSEntry)
      (check_langs : List (String × List String)),
      (check_langs.map Prod.fst).Nodup →
      (determine_language_aux check_langs dir_files).Nodup := by
  intro dir_files
  induction dir_files with
  | nil => intro check_langs _; simp [determine_language_aux]
  | cons f rest ih =>
    intro check_langs hnd
    by_cases hf : f.isFile = false
    · rw [determine_language_aux, if_pos hf]
      exact ih check_langs hnd
    · by_cases hc : check_langs = []
      · subst hc
        rw [determine_language_aux, if_neg hf, if_pos rfl]
        simp
      · rw [determine_language_aux, if_neg hf, if_neg hc]
        have hsub : ∀ q : String → Bool,
            ((check_langs.filter (fun p => q (f.suffix))).map
              Prod.fst).Sublist (check_langs.map Prod.fst) := by
          intro q
          exact List.Sublist.map Prod.fst (List.filter_sublist check_langs)
        refine List.Nodup.append ?_ ?_ ?_
        · exact List.Nodup.sublist
            (List.Sublist.map Prod.fst (List.filter_sublist check_langs)) hnd
        · refine ih _ (List.Nodup.sublist
            (List.Sublist.map Prod.fst (List.filter_sublist check_langs))
            hnd)
        · intro a ha1 ha2
          rcases List.mem_map.mp ha1 with ⟨p1, hp1, hp1a⟩
          rcases (mem_determine_language_aux a rest _).mp ha2 with
            ⟨p2, hp2, hp2a, _, _, _, _⟩
          have hm1 := List.mem_filter.mp hp1
          have hm2 := List.mem_filter.mp hp2
          have hinj := List.inj_on_of_nodup_map hnd
          have hpeq : p1 = p2 :=
            hinj hm1.1 hm2.1 (by rw [hp1a, hp2a])
          have hmatch : f.suffix ∈ p1.2 := by simpa using hm1.2
          have hnomatch : ¬ f.suffix ∈ p2.2 := by simpa using hm2.2
          exact hnomatch (hpeq ▸ hmatch)

/-- C5: `determine_language` returns, without duplicates, exactly the
language tags of the registry for which at least one file under the
directory has an extension in that tag's extension list; in particular
membership is independent of the enumeration order of the files. -/
theorem determine_language_correct (dir_files : List FSEntry) :
    (determine_language dir_files).Nodup ∧
    (∀ l, l ∈ determine_language dir_files ↔
      ∃ p, p ∈ LANGUAGES ∧ p.1 = l ∧
        ∃ f, f ∈ dir_files ∧ f.isFile = true ∧ f.suffix ∈ p.2) ∧
    ∀ other : List FSEntry, dir_files.Perm other →
      ∀ l, (l ∈ determine_language dir_files ↔
            l ∈ determine_language other) := by
  refine ⟨nodup_determine_language_aux dir_files LANGUAGES (by decide),
    fun l => mem_determine_language_aux l dir_files LANGUAGES, ?_⟩
  intro other hperm l
  simp only [determine_language]
  rw [mem_determine_language_aux l dir_files LANGUAGES,
    mem_determine_language_aux l other LANGUAGES]
  constructor
  · rintro ⟨p, hp, hpl, f, hfm, hff, hsuf⟩
    exact ⟨p, hp, hpl, f, hperm.mem_iff.mp hfm, hff, hsuf⟩
  · rintro ⟨p, hp, hpl, f, hfm, hff, hsuf⟩
    exact ⟨p, hp, hpl, f, hperm.mem_iff.mpr hfm, hff, hsuf⟩

/-- Witness for C5 at a concrete directory: detection of "python" is
stable under reordering the walked files. -/
theorem determine_language_correct_witness :
    "python" ∈ determine_language
      [⟨"b.py", true, ".py"⟩, ⟨"a.md", true, ".md"⟩] :=
  ((determine_language_correct
      [⟨"a.md", true, ".md"⟩, ⟨"b.py", true, ".py"⟩]).2.2
    [⟨"b.py", true, ".py"⟩, ⟨"a.md", true, ".md"⟩]
    (by decide) "python").mp (by decide)

/-- `find_existing_workflows` of gwm.py.  The repository's conventional
workflow directory is modelled as `none` when `workflow_dir.is_dir()`
is false and as the list of its direct entries otherwise; kept are the
names of regular files with suffix ".yml". -/
def find_existing_workflows (workflow_dir : Option (List FSEntry)) :
    List String :=
  match workflow_dir with
  | some entries =>
      (entries.filter
          (fun f => f.isFile && decide (f.suffix = ".yml"))).map
        (fun f => f.name)
  | none => []

/-- C6: on a repository without the conventional workflow directory the
result is empty; otherwise it holds exactly the names of the regular
files directly inside it whose extension is ".yml" (other extensions
and subdirectories excluded; the listing is non-recursive by
construction). -/
theorem find_existing_workflows_correct :
    find_existing_workflows none = ([] : List String) ∧
    ∀ (entries : List FSEntry) (n : String),
      n ∈ find_existing_workflows (some entries) ↔
        ∃ f, f ∈ entries ∧ f.isFile = true ∧ f.suffix = ".yml" ∧
          f.name = n := by
  refine ⟨rfl, ?_⟩
  intro entries n
  simp only [find_existing_workflows, List.mem_map, List.mem_filter,
    Bool.and_eq_true, decide_eq_true_eq]
  constructor
  · rintro ⟨f, ⟨hf, hff, hsuf⟩, hn⟩
    exact ⟨f, hf, hff, hsuf, hn⟩
  · rintro ⟨f, hf, hff, hsuf, hn⟩
    exact ⟨f, ⟨hf, hff, hsuf⟩, hn⟩

/-- An immediate child of the scan base directory: its name, whether it
is a directory, the files its recursive walk yields (for language
detection) and its conventional workflow directory listing (`none`
when absent). -/
structure BaseEntry where
  name : String
  isDir : Bool
  files : List FSEntry
  workflow_dir : Option (List FSEntry)
deriving DecidableEq

/-- The `Repository` record built by the loop body of
`find_repositories` of gwm.py for one subdirectory. -/
def make_repository (base_dir : Path) (d : BaseEntry) : Repository :=
  ⟨base_dir ++ [d.name], determine_language d.files,
   find_existing_workflows d.workflow_dir⟩

/-- `find_repositories` of gwm.py: iterate over the base directory's
entries, keep directories (the generator filter) whose name is not on
the ignore list, and append one `Repository` per kept entry. -/
def find_repositories (base_dir : Path) (entries : List BaseEntry)
    (ignore : List String) : List Repository :=
  entries.foldl
    (fun repos d =>
      if d.isDir = false then repos
      else if d.name ∈ ignore then repos
      else repos ++ [make_repository base_dir d])
    []

theorem find_repositories_foldl (base_dir : Path) (ignore : List String) :
    ∀ (entries : List BaseEntry) (init : List Repository),
      entries.foldl
        (fun repos d =>
          if d.isDir = false then repos
          else if d.name ∈ ignore then repos
          else repos ++ [make_repository base_dir d]) init
      = init ++
        (entries.filter
            (fun d => d.isDir && !decide (d.name ∈ ignore))).map
          (make_repository base_dir) := by
  intro entries
  induction entries with
  | nil => intro init; simp
  | cons d rest ih =>
    intro init
    rw [List.foldl_cons]
    by_cases hd : d.isDir = false
    · rw [if_pos hd, ih]
      simp [List.filter_cons, hd]
    · have hdt : d.isDir = true := by
        cases h : d.isDir
        · exact absurd h hd
        · rfl
      by_cases hi : d.name ∈ ignore
      · rw [if_neg hd, if_pos hi, ih]
        simp [List.filter_cons, hdt, hi]
      · rw [if_neg hd, if_neg hi, ih]
        simp [List.filter_cons, hdt, hi]

/-- C8: `find_repositories` returns one `Repository` per non-ignored
subdirectory of the base and nothing else: the result is exactly the
filtered map over the base entries, every returned record stems from a
directory entry whose name is not ignored, and non-directory entries
contribute nothing. -/
theorem find_repositories_correct (base_dir : Path)
    (entries : List BaseEntry) (ignore : List String) :
    find_repositories base_dir entries ignore =
      (entries.filter
          (fun d => d.isDir && !decide (d.name ∈ ignore))).map
        (make_repository base_dir) ∧
    ∀ r, r ∈ find_repositories base_dir entries ignore →
      ∃ d, d ∈ entries ∧ d.isDir = true ∧ ¬ d.name ∈ ignore ∧
        r = make_repository base_dir d ∧ r.path = base_dir ++ [d.name] := by
  have heq := find_repositories_foldl base_dir ignore entries []
  refine ⟨by simpa [find_repositories] using heq, ?_⟩
  intro r hr
  rw [find_repositories] at hr
  rw [heq] at hr
  simp only [List.nil_append, List.mem_map, List.mem_filter,
    Bool.and_eq_true, Bool.not_eq_true', decide_eq_false_iff_not] at hr
  rcases hr with ⟨d, ⟨hd, hdir, hnig⟩, hmk⟩
  exact ⟨d, hd, hdir, hnig, hmk.symm, by rw [← hmk]; rfl⟩

/-- Witness for C8: the record produced for a kept directory entry
comes from a non-ignored directory of the base listing. -/
theorem find_repositories_correct_witness :
    ∃ d, d ∈ [(⟨"keep", true, [], none⟩ : BaseEntry),
        ⟨"skip", true, [], none⟩] ∧
      d.isDir = true ∧ ¬ d.name ∈ ["skip"] ∧
      make_repository [] ⟨"keep", true, [], none⟩ =
        make_repository [] d ∧
      (make_repository [] ⟨"keep", true, [], none⟩).path =
        [] ++ [d.name] :=
  (find_repositories_correct []
    [⟨"keep", true, [], none⟩, ⟨"skip", true, [], none⟩] ["skip"]).2
    (make_repository [] ⟨"keep", true, [], none⟩) (by decide)

/-- C1: `determine_operations` returns exactly the operations obtained
by taking, per repository, each index tag relevant to it (detected
language or the wildcard), each workflow of that bucket and each of its
files, pairing the workflow source directory joined with the relative
file path against the repository path joined with the conventional
workflow directory joined with the same relative path (no flattening);
membership in the result is characterized accordingly. -/
theorem determine_operations_correct (repositories : List Repository)
    (wpl : List (String × List Workflow)) :
    determine_operations repositories wpl =
      spec_determine_operations repositories wpl ∧
    ∀ op : Path × Path,
      op ∈ determine_operations repositories wpl ↔
        ∃ repo, repo ∈ repositories ∧ ∃ p, p ∈ wpl ∧
          (p.1 ∈ repo.languages ∨ p.1 = "*") ∧
          ∃ wf, wf ∈ p.2 ∧ ∃ wf_file, wf_file ∈ wf.files ∧
            op = (wf.parent_dir ++ wf_file,
                  repo.path ++ WORKFLOW_PATH ++ wf_file) := by
  refine ⟨det_ops_eq_spec repositories wpl, ?_⟩
  intro op
  rw [det_ops_eq_spec repositories wpl]
  unfold spec_determine_operations
  simp only [List.mem_flatMap, List.mem_filter, List.mem_map,
    decide_eq_true_eq]
  constructor
  · rintro ⟨repo, hrepo, p, ⟨hp, hrel⟩, wf, hwf, wf_file, hfile, hop⟩
    exact ⟨repo, hrepo, p, hp, hrel, wf, hwf, wf_file, hfile, hop.symm⟩
  · rintro ⟨repo, hrepo, p, hp, hrel, wf, hwf, wf_file, hfile, hop⟩
    exact ⟨repo, hrepo, p, ⟨hp, hrel⟩, wf, hwf, wf_file, hfile, hop.symm⟩

theorem flatMap_sublist_of_mem {α β : Type} (g : α → List β) {a : α}
    {l : List α} (h : a ∈ l) : (g a).Sublist (l.flatMap g) := by
  obtain ⟨s, t, rfl⟩ := List.append_of_mem h
  have heq : (s ++ a :: t).flatMap g = s.flatMap g ++ (g a ++ t.flatMap g) := by
    simp
  rw [heq]
  exact ((List.sublist_append_left (g a) (t.flatMap g)).trans
    (List.sublist_append_right (s.flatMap g) _))

theorem pair_sublist_flatMap {α β : Type} (g : α → List β)
    (P Q R : List α) (a b : α) {x y : β}
    (hx : x ∈ g a) (hy : y ∈ g b) :
    List.Sublist [x, y] ((P ++ a :: Q ++ b :: R).flatMap g) := by
  have h1 : List.Sublist [x] (g a) := List.singleton_sublist.mpr hx
  have h2 : List.Sublist [y] (g b) := List.singleton_sublist.mpr hy
  have hb : (g b).Sublist ((Q ++ b :: R).flatMap g) :=
    flatMap_sublist_of_mem g (by simp)
  have hmain : List.Sublist ([x] ++ [y])
      (g a ++ (Q ++ b :: R).flatMap g) :=
    List.Sublist.append h1 (h2.trans hb)
  have heq : (P ++ a :: Q ++ b :: R).flatMap g =
      P.flatMap g ++ (g a ++ (Q ++ b :: R).flatMap g) := by
    simp
  rw [heq]
  exact hmain.trans (List.sublist_append_right (P.flatMap g) _)

theorem det_pair_same_bucket
    (repositories : List Repository) (repo : Repository)
    (A B : List (String × List Workflow)) (l : String)
    (P Q R : List Workflow) (wf1 wf2 : Workflow) (f : Path)
    (hrepo : repo ∈ repositories)
    (hrel : l ∈ repo.languages ∨ l = "*")
    (hf1 : f ∈ wf1.files) (hf2 : f ∈ wf2.files) :
    List.Sublist
      [(wf1.parent_dir ++ f, repo.path ++ WORKFLOW_PATH ++ f),
       (wf2.parent_dir ++ f, repo.path ++ WORKFLOW_PATH ++ f)]
      (determine_operations repositories
        (A ++ (l, P ++ wf1 :: Q ++ wf2 :: R) :: B)) := by
  rw [det_ops_eq_spec, spec_determine_operations]
  refine List.Sublist.trans ?_ (flatMap_sublist_of_mem _ hrepo)
  have hc : decide (l ∈ repo.languages ∨ l = "*") = true :=
    decide_eq_true hrel
  have hfeq :
      ((A ++ (l, P ++ wf1 :: Q ++ wf2 :: R) :: B).filter
        (fun p => decide (p.1 ∈ repo.languages ∨ p.1 = "*"))) =
      (A.filter (fun p => decide (p.1 ∈ repo.languages ∨ p.1 = "*"))) ++
        (l, P ++ wf1 :: Q ++ wf2 :: R) ::
        (B.filter (fun p => decide (p.1 ∈ repo.languages ∨ p.1 = "*"))) := by
    simp [List.filter_append, List.filter_cons, hc, hrel]
  rw [hfeq]
  have hmem : (l, P ++ wf1 :: Q ++ wf2 :: R) ∈
      (A.filter (fun p => decide (p.1 ∈ repo.languages ∨ p.1 = "*"))) ++
        (l, P ++ wf1 :: Q ++ wf2 :: R) ::
        (B.filter (fun p => decide (p.1 ∈ repo.languages ∨ p.1 = "*"))) := by
    simp
  refine List.Sublist.trans ?_ (flatMap_sublist_of_mem _ hmem)
  exact pair_sublist_flatMap
    (fun wf => wf.files.map (fun wf_file =>
      (wf.parent_dir ++ wf_file, repo.path ++ WORKFLOW_PATH ++ wf_file)))
    P Q R wf1 wf2
    (List.mem_map.mpr ⟨f, hf1, rfl⟩) (List.mem_map.mpr ⟨f, hf2, rfl⟩)

theorem det_pair_cross_bucket
    (repositories : List Repository) (repo : Repository)
    (A B C : List (String × List Workflow)) (l1 l2 : String)
    (ws1 ws2 : List Workflow) (wf1 wf2 : Workflow) (f1 f2 : Path)
    (hrepo : repo ∈ repositories)
    (hrel1 : l1 ∈ repo.languages ∨ l1 = "*")
    (hrel2 : l2 ∈ repo.languages ∨ l2 = "*")
    (hw1 : wf1 ∈ ws1) (hw2 : wf2 ∈ ws2)
    (hf1 : f1 ∈ wf1.files) (hf2 : f2 ∈ wf2.files) :
    List.Sublist
      [(wf1.parent_dir ++ f1, repo.path ++ WORKFLOW_PATH ++ f1),
       (wf2.parent_dir ++ f2, repo.path ++ WORKFLOW_PATH ++ f2)]
      (determine_operations repositories
        (A ++ (l1, ws1) :: B ++ (l2, ws2) :: C)) := by
  rw [det_ops_eq_spec, spec_determine_operations]
  refine List.Sublist.trans ?_ (flatMap_sublist_of_mem _ hrepo)
  have hc1 : decide (l1 ∈ repo.languages ∨ l1 = "*") = true :=
    decide_eq_true hrel1
  have hc2 : decide (l2 ∈ repo.languages ∨ l2 = "*") = true :=
    decide_eq_true hrel2
  have hfeq :
      ((A ++ (l1, ws1) :: B ++ (l2, ws2) :: C).filter
        (fun p => decide (p.1 ∈ repo.languages ∨ p.1 = "*"))) =
      (A.filter (fun p => decide (p.1 ∈ repo.languages ∨ p.1 = "*"))) ++
        (l1, ws1) ::
        (B.filter (fun p => decide (p.1 ∈ repo.languages ∨ p.1 = "*"))) ++
        (l2, ws2) ::
        (C.filter (fun p => decide (p.1 ∈ repo.languages ∨ p.1 = "*"))) := by
    simp [List.filter_append, List.filter_cons, hc1, hc2, hrel1, hrel2]
  rw [hfeq]
  refine pair_sublist_flatMap
    (fun p => p.2.flatMap (fun wf => wf.files.map (fun wf_file =>
      (wf.parent_dir ++ wf_file, repo.path ++ WORKFLOW_PATH ++ wf_file))))
    _ _ _ (l1, ws1) (l2, ws2) ?_ ?_
  · exact List.mem_flatMap.mpr ⟨wf1, hw1, List.mem_map.mpr ⟨f1, hf1, rfl⟩⟩
  · exact List.mem_flatMap.mpr ⟨wf2, hw2, List.mem_map.mpr ⟨f2, hf2, rfl⟩⟩

/-- C3: when two workflows applicable to the same repository declare a
file with the same destination, both copy operations are emitted, and
in the order the workflows appear in the index: one statement for two
workflows of the same bucket (where bucket order is manifest order),
one for workflows of two different buckets (where the operations of the
earlier bucket come first). -/
theorem determine_operations_conflict_order :
    (∀ (repositories : List Repository) (repo : Repository)
       (A B : List (String × List Workflow)) (l : String)
       (P Q R : List Workflow) (wf1 wf2 : Workflow) (f : Path),
       repo ∈ repositories →
       (l ∈ repo.languages ∨ l = "*") →
       f ∈ wf1.files → f ∈ wf2.files →
       List.Sublist
         [(wf1.parent_dir ++ f, repo.path ++ WORKFLOW_PATH ++ f),
          (wf2.parent_dir ++ f, repo.path ++ WORKFLOW_PATH ++ f)]
         (determine_operations repositories
           (A ++ (l, P ++ wf1 :: Q ++ wf2 :: R) :: B))) ∧
    (∀ (repositories : List Repository) (repo : Repository)
       (A B C : List (String × List Workflow)) (l1 l2 : String)
       (ws1 ws2 : List Workflow) (wf1 wf2 : Workflow) (f : Path),
       repo ∈ repositories →
       (l1 ∈ repo.languages ∨ l1 = "*") →
       (l2 ∈ repo.languages ∨ l2 = "*") →
       wf1 ∈ ws1 → wf2 ∈ ws2 →
       f ∈ wf1.files → f ∈ wf2.files →
       List.Sublist
         [(wf1.parent_dir ++ f, repo.path ++ WORKFLOW_PATH ++ f),
          (wf2.parent_dir ++ f, repo.path ++ WORKFLOW_PATH ++ f)]
         (determine_operations repositories
           (A ++ (l1, ws1) :: B ++ (l2, ws2) :: C))) := by
  constructor
  · intro repositories repo A B l P Q R wf1 wf2 f hrepo hrel hf1 hf2
    exact det_pair_same_bucket repositories repo A B l P Q R wf1 wf2 f
      hrepo hrel hf1 hf2
  · intro repositories repo A B C l1 l2 ws1 ws2 wf1 wf2 f hrepo hrel1
      hrel2 hw1 hw2 hf1 hf2
    exact det_pair_cross_bucket repositories repo A B C l1 l2 ws1 ws2
      wf1 wf2 f f hrepo hrel1 hrel2 hw1 hw2 hf1 hf2

/-- Witness for C3: two wildcard workflows with the same file yield
both operations in bucket order for a repository with no languages. -/
theorem determine_operations_conflict_order_witness :
    List.Sublist
      [(["srcA"] ++ ["x.yml"], ["r"] ++ WORKFLOW_PATH ++ ["x.yml"]),
       (["srcB"] ++ ["x.yml"], ["r"] ++ WORKFLOW_PATH ++ ["x.yml"])]
      (determine_operations [⟨["r"], [], []⟩]
        ([] ++ ("*", [] ++ ⟨"a", ["srcA"], [["x.yml"]], ["*"]⟩ ::
          [] ++ ⟨"b", ["srcB"], [["x.yml"]], ["*"]⟩ :: []) :: [])) :=
  determine_operations_conflict_order.1
    [⟨["r"], [], []⟩] ⟨["r"], [], []⟩ [] [] "*" [] [] []
    ⟨"a", ["srcA"], [["x.yml"]], ["*"]⟩
    ⟨"b", ["srcB"], [["x.yml"]], ["*"]⟩
    ["x.yml"] (by decide) (Or.inr rfl) (by decide) (by decide)

/-- C9: the matcher is a pure function of its two arguments; two runs
on equal repository lists and equal indexes return identical operation
lists (the embedded function takes no filesystem argument at all). -/
theorem determine_operations_pure
    (r1 r2 : List Repository) (w1 w2 : List (String × List Workflow))
    (hr : r1 = r2) (hw : w1 = w2) :
    determine_operations r1 w1 = determine_operations r2 w2 := by
  rw [hr, hw]

/-- Witness for C9 at concrete equal inputs. -/
theorem determine_operations_pure_witness :
    determine_operations [⟨["r"], ["python"], []⟩]
        [("*", [⟨"a", ["src"], [["x.yml"]], ["*"]⟩])] =
      determine_operations [⟨["r"], ["python"], []⟩]
        [("*", [⟨"a", ["src"], [["x.yml"]], ["*"]⟩])] :=
  determine_operations_pure _ _ _ _ rfl rfl

/-- C10: one workflow listed under two index tags both relevant to a
repository contributes its file operation once per tag, so the very
same (source, destination) pair occurs at least twice. -/
theorem determine_operations_dup_per_tag
    (repositories : List Repository) (repo : Repository)
    (A B C : List (String × List Workflow)) (l1 l2 : String)
    (ws1 ws2 : List Workflow) (wf : Workflow) (f : Path)
    (hrepo : repo ∈ repositories)
    (hrel1 : l1 ∈ repo.languages ∨ l1 = "*")
    (hrel2 : l2 ∈ repo.languages ∨ l2 = "*")
    (hw1 : wf ∈ ws1) (hw2 : wf ∈ ws2) (hf : f ∈ wf.files) :
    2 ≤ List.count
        (wf.parent_dir ++ f, repo.path ++ WORKFLOW_PATH ++ f)
        (determine_operations repositories
          (A ++ (l1, ws1) :: B ++ (l2, ws2) :: C)) := by
  have hsub := det_pair_cross_bucket repositories repo A B C l1 l2
    ws1 ws2 wf wf f f hrepo hrel1 hrel2 hw1 hw2 hf hf
  have hcount := hsub.count_le
    (wf.parent_dir ++ f, repo.path ++ WORKFLOW_PATH ++ f)
  simpa using hcount

/-- Witness for C10: one workflow tagged both "python" and wildcard
produces its operation twice for a python repository. -/
theorem determine_operations_dup_per_tag_witness :
    2 ≤ List.count
        (["src"] ++ ["x.yml"], ["r"] ++ WORKFLOW_PATH ++ ["x.yml"])
        (determine_operations [⟨["r"], ["python"], []⟩]
          ([] ++ ("python", [⟨"a", ["src"], [["x.yml"]], ["python", "*"]⟩]) ::
            [] ++ ("*", [⟨"a", ["src"], [["x.yml"]], ["python", "*"]⟩]) :: [])) :=
  determine_operations_dup_per_tag
    [⟨["r"], ["python"], []⟩] ⟨["r"], ["python"], []⟩ [] [] []
    "python" "*"
    [⟨"a", ["src"], [["x.yml"]], ["python", "*"]⟩]
    [⟨"a", ["src"], [["x.yml"]], ["python", "*"]⟩]
    ⟨"a", ["src"], [["x.yml"]], ["python", "*"]⟩ ["x.yml"]
    (by decide) (Or.inl (by decide)) (Or.inr rfl)
    (by decide) (by decide) (by decide)

/-- A manifest entry: the table key and the optional `file` and
`language` fields of its body. -/
structure ManifestEntry where
  name : String
  file : Option (TomlItem Path)
  language : Option (TomlItem String)
deriving DecidableEq

/-- `Workflow.validate` of gwm.py: raise `FileNotFoundError` carrying
the first declared file that is not a regular file under the parent
directory (`fs` is the file-existence predicate of the filesystem). -/
def Workflow.validate (fs : Path → Bool) (wf : Workflow) :
    Except Path Unit :=
  match wf.files.find? (fun file => !fs (wf.parent_dir ++ file)) with
  | some file => Except.error file
  | none => Except.ok ()

/-- The `language` list of an entry after the normalization of
`load_workflows`: default to the wildcard when the key is absent, then
`as_list`. -/
def entry_languages (e : ManifestEntry) : List String :=
  as_list (e.language.getD (TomlItem.list ["*"]))

/-- The `file` list of an entry after `as_list` (the absent-key case
never reaches this point: it raises `KeyError` first). -/
def entry_files (e : ManifestEntry) : List Path :=
  match e.file with
  | some fv => as_list fv
  | none => []

/-- The `Workflow` record built for one manifest entry. -/
def entry_workflow (parent_dir : Path) (e : ManifestEntry) : Workflow :=
  ⟨e.name, parent_dir, entry_files e, entry_languages e⟩

/-- Whether every file declared by the entry exists, i.e. whether
`validate` passes. -/
def entry_valid (fs : Path → Bool) (parent_dir : Path)
    (e : ManifestEntry) : Bool :=
  (entry_files e).all (fun file => fs (parent_dir ++ file))

/-- The stderr line printed when an entry is rejected, carrying the
first missing file (the `FileNotFoundError` reason). -/
def reject_message (fs : Path → Bool) (parent_dir : Path)
    (e : ManifestEntry) : String :=
  match (entry_files e).find? (fun file => !fs (parent_dir ++ file)) with
  | some file =>
      "Ignore invalid workflow " ++ e.name ++ ".  Reason: " ++
        String.intercalate "/" file
  | none => ""

/-- `workflows_per_language[lang].append(wf)` on the insertion-ordered
defaultdict, modelled as an association list: append to the existing
bucket, or create a new key at the end. -/
def dict_append (d : List (String × List Workflow)) (k : String)
    (wf : Workflow) : List (String × List Workflow) :=
  if d.any (fun p => p.1 == k) then
    d.map (fun p => if p.1 = k then (p.1, p.2 ++ [wf]) else p)
  else d ++ [(k, [wf])]

/-- Reading a bucket of the per-language index (missing key: empty). -/
def dict_get (d : List (String × List Workflow)) (k : String) :
    List Workflow :=
  match d.find? (fun p => p.1 == k) with
  | some p => p.2
  | none => []

/-- The index obtained by appending every workflow of the list under
each of its language tags, in order, starting from `d0`. -/
def build_dict (wfs : List Workflow)
    (d0 : List (String × List Workflow)) :
    List (String × List Workflow) :=
  wfs.foldl
    (fun d wf => wf.languages.foldl
      (fun d2 lang => dict_append d2 lang wf) d) d0

theorem dict_get_dict_append (d : List (String × List Workflow))
    (k : String) (wf : Workflow) (k2 : String) :
    dict_get (dict_append d k wf) k2 =
      if k2 = k then dict_get d k2 ++ [wf] else dict_get d k2 := by
  unfold dict_append dict_get
  by_cases hany : d.any (fun p => p.1 == k)
  · rw [if_pos hany, List.find?_map]
    have hcomp : ((fun p : String × List Workflow => p.1 == k2) ∘
        (fun p => if p.1 = k then (p.1, p.2 ++ [wf]) else p)) =
        (fun p : String × List Workflow => p.1 == k2) := by
      funext p
      by_cases hp : p.1 = k <;> simp [hp]
    rw [hcomp]
    by_cases hk : k2 = k
    · rw [if_pos hk]
      cases hfind : d.find? (fun p => p.1 == k2) with
      | none =>
          exfalso
          rcases List.any_eq_true.mp hany with ⟨p0, hp0, hp0k⟩
          exact (List.find?_eq_none.mp hfind p0 hp0)
            (by rw [hk]; exact hp0k)
      | some p0 =>
          have hp0 := List.find?_some hfind
          have hp0e : p0.1 = k2 := by simpa using hp0
          have hp0k : p0.1 = k := by rw [← hk]; exact hp0e
          simp [hp0k]
    · rw [if_neg hk]
      cases hfind : d.find? (fun p => p.1 == k2) with
      | none => simp
      | some p0 =>
          have hp0 := List.find?_some hfind
          have hp0e : p0.1 = k2 := by simpa using hp0
          have hp0k : ¬ p0.1 = k := by
            rw [hp0e]
            exact hk
          simp [hp0k]
  · rw [if_neg hany, List.find?_append]
    have hnone : d.find? (fun p => p.1 == k) = none := by
      rw [List.find?_eq_none]
      intro p hp hpk
      exact hany (List.any_eq_true.mpr ⟨p, hp, hpk⟩)
    by_cases hk : k2 = k
    · rw [if_pos hk, hk, hnone]
      simp
    · rw [if_neg hk]
      have hsingle : [((k, [wf]) : String × List Workflow)].find?
          (fun p => p.1 == k2) = none := by
        rw [List.find?_eq_none]
        intro p hp
        rw [List.mem_singleton.mp hp]
        simp
        exact fun h => hk h.symm
      rw [hsingle]
      cases hfind : d.find? (fun p => p.1 == k2) <;> simp

theorem dict_get_lang_foldl (wf : Workflow) (k : String)
    (langs : List String) :
    ∀ d : List (String × List Workflow),
      dict_get (langs.foldl (fun d2 lang => dict_append d2 lang wf) d) k =
        dict_get d k ++ (langs.filter (fun x => x = k)).map (fun _ => wf) := by
  induction langs with
  | nil => intro d; simp
  | cons lang rest ih =>
    intro d
    rw [List.foldl_cons, ih, dict_get_dict_append]
    by_cases hk : k = lang
    · rw [if_pos hk, List.filter_cons]
      simp [hk]
    · rw [if_neg hk, List.filter_cons]
      have : ¬ lang = k := fun h => hk h.symm
      simp [this]

theorem dict_get_build_dict (k : String) (wfs : List Workflow) :
    ∀ d0 : List (String × List Workflow),
      dict_get (build_dict wfs d0) k =
        dict_get d0 k ++
          wfs.flatMap (fun wf =>
            (wf.languages.filter (fun x => x = k)).map (fun _ => wf)) := by
  induction wfs with
  | nil => intro d0; simp [build_dict]
  | cons wf rest ih =>
    intro d0
    have h1 : build_dict (wf :: rest) d0 =
        build_dict rest
          (wf.languages.foldl (fun d2 lang => dict_append d2 lang wf) d0) :=
      rfl
    rw [h1, ih, dict_get_lang_foldl]
    simp [List.append_assoc]

/-- The per-entry loop of `load_workflows` of gwm.py, carrying the
accumulated workflow list, the per-language defaultdict and the lines
printed to stderr.  An entry without a `file` key raises `KeyError` at
the list normalization, which sits before the `try` block, so it aborts
the whole load; a `FileNotFoundError` raised by `validate` inside the
`try` is caught: a diagnostic is recorded and only this entry is
skipped. -/
def load_workflows_aux (fs : Path → Bool) (parent_dir : Path) :
    List ManifestEntry → List Workflow →
    List (String × List Workflow) → List String →
    Except String
      (List Workflow × List (String × List Workflow) × List String)
  | [], workflows, wpl, errs => Except.ok (workflows, wpl, errs)
  | e :: rest, workflows, wpl, errs =>
    match e.file with
    | none => Except.error ("KeyError: " ++ e.name)
    | some _ =>
      match (entry_workflow parent_dir e).validate fs with
      | Except.error file =>
          load_workflows_aux fs parent_dir rest workflows wpl
            (errs ++
              ["Ignore invalid workflow " ++ e.name ++ ".  Reason: " ++
                String.intercalate "/" file])
      | Except.ok _ =>
          load_workflows_aux fs parent_dir rest
            (workflows ++ [entry_workflow parent_dir e])
            ((entry_workflow parent_dir e).languages.foldl
              (fun d2 lang => dict_append d2 lang
                (entry_workflow parent_dir e)) wpl)
            errs

/-- `load_workflows` of gwm.py on an already parsed manifest (a
manifest file that cannot be read or parsed raises before this loop
and is outside this model), returning the workflow list, the
per-language index and the stderr lines. -/
def load_workflows (fs : Path → Bool) (parent_dir : Path)
    (manifest : List ManifestEntry) :
    Except String
      (List Workflow × List (String × List Workflow) × List String) :=
  load_workflows_aux fs parent_dir manifest [] [] []

theorem validate_of_find_some (fs : Path → Bool) (pd : Path)
    (e : ManifestEntry) (file : Path)
    (h : (entry_files e).find? (fun f2 => !fs (pd ++ f2)) = some file) :
    (entry_workflow pd e).validate fs = Except.error file := by
  simp [Workflow.validate, entry_workflow, h]

theorem validate_of_find_none (fs : Path → Bool) (pd : Path)
    (e : ManifestEntry)
    (h : (entry_files e).find? (fun f2 => !fs (pd ++ f2)) = none) :
    (entry_workflow pd e).validate fs = Except.ok () := by
  simp [Workflow.validate, entry_workflow, h]

theorem entry_valid_of_find_none (fs : Path → Bool) (pd : Path)
    (e : ManifestEntry)
    (h : (entry_files e).find? (fun f2 => !fs (pd ++ f2)) = none) :
    entry_valid fs pd e = true := by
  rw [entry_valid, List.all_eq_true]
  intro file hf
  have := List.find?_eq_none.mp h file hf
  simpa using this

theorem entry_valid_of_find_some (fs : Path → Bool) (pd : Path)
    (e : ManifestEntry) (file : Path)
    (h : (entry_files e).find? (fun f2 => !fs (pd ++ f2)) = some file) :
    entry_valid fs pd e = false := by
  have hmem : file ∈ entry_files e := List.mem_of_find?_eq_some h
  have hfail := List.find?_some h
  rw [entry_valid]
  rw [List.all_eq_false]
  exact ⟨file, hmem, by simpa using hfail⟩

theorem load_workflows_aux_ok (fs : Path → Bool) (pd : Path)
    (manifest : List ManifestEntry) :
    ∀ (ws : List Workflow) (wpl : List (String × List Workflow))
      (errs : List String),
      (∀ e ∈ manifest, e.file ≠ none) →
      load_workflows_aux fs pd manifest ws wpl errs =
        Except.ok
          (ws ++ (manifest.filter (entry_valid fs pd)).map
             (entry_workflow pd),
           build_dict
             ((manifest.filter (entry_valid fs pd)).map
               (entry_workflow pd)) wpl,
           errs ++ (manifest.filter
               (fun e => !entry_valid fs pd e)).map
             (reject_message fs pd)) := by
  induction manifest with
  | nil => intro ws wpl errs _; simp [load_workflows_aux, build_dict]
  | cons e rest ih =>
    intro ws wpl errs hall
    have hf : e.file ≠ none := hall e (List.mem_cons_self e rest)
    have hall2 : ∀ e2 ∈ rest, e2.file ≠ none :=
      fun e2 h2 => hall e2 (List.mem_cons_of_mem e h2)
    cases hfv : e.file with
    | none => exact absurd hfv hf
    | some fv =>
      cases hfind : (entry_files e).find? (fun f2 => !fs (pd ++ f2)) with
      | some file =>
          have hval := validate_of_find_some fs pd e file hfind
          have hvalid := entry_valid_of_find_some fs pd e file hfind
          have hmsg : reject_message fs pd e =
              "Ignore invalid workflow " ++ e.name ++ ".  Reason: " ++
                String.intercalate "/" file := by
            simp [reject_message, hfind]
          rw [load_workflows_aux, hfv]
          simp only [hval]
          rw [ih _ _ _ hall2]
          rw [List.filter_cons, List.filter_cons]
          simp [hvalid, hmsg, List.append_assoc]
      | none =>
          have hval := validate_of_find_none fs pd e hfind
          have hvalid := entry_valid_of_find_none fs pd e hfind
          rw [load_workflows_aux, hfv]
          simp only [hval]
          rw [ih _ _ _ hall2]
          rw [List.filter_cons, List.filter_cons]
          have hbd : build_dict
              ((entry_workflow pd e) ::
                (rest.filter (entry_valid fs pd)).map (entry_workflow pd))
              wpl =
            build_dict
              ((rest.filter (entry_valid fs pd)).map (entry_workflow pd))
              ((entry_workflow pd e).languages.foldl
                (fun d2 lang => dict_append d2 lang (entry_workflow pd e))
                wpl) := rfl
          simp [hvalid, List.append_assoc, hbd]

theorem load_workflows_aux_error (fs : Path → Bool) (pd : Path)
    (manifest : List ManifestEntry) :
    ∀ (ws : List Workflow) (wpl : List (String × List Workflow))
      (errs : List String) (e : ManifestEntry),
      e ∈ manifest → e.file = none →
      ∃ msg, load_workflows_aux fs pd manifest ws wpl errs =
        Except.error msg := by
  induction manifest with
  | nil => intro ws wpl errs e he; cases he
  | cons e0 rest ih =>
    intro ws wpl errs e he hf
    rcases List.mem_cons.mp he with heq | hmem
    · subst heq
      exact ⟨"KeyError: " ++ e.name, by rw [load_workflows_aux, hf]⟩
    · cases hf0 : e0.file with
      | none =>
          exact ⟨"KeyError: " ++ e0.name, by rw [load_workflows_aux, hf0]⟩
      | some fv =>
          cases hval : (entry_workflow pd e0).validate fs with
          | error file =>
              rcases ih ws wpl
                (errs ++
                  ["Ignore invalid workflow " ++ e0.name ++
                    ".  Reason: " ++ String.intercalate "/" file])
                e hmem hf with ⟨msg, hmsg⟩
              refine ⟨msg, ?_⟩
              rw [load_workflows_aux, hf0]
              simp only [hval]
              exact hmsg
          | ok u =>
              cases u
              rcases ih (ws ++ [entry_workflow pd e0])
                ((entry_workflow pd e0).languages.foldl
                  (fun d2 lang => dict_append d2 lang
                    (entry_workflow pd e0)) wpl)
                errs e hmem hf with ⟨msg, hmsg⟩
              refine ⟨msg, ?_⟩
              rw [load_workflows_aux, hf0]
              simp only [hval]
              exact hmsg

theorem flatMap_congr_mem {α β : Type} {l : List α} {f g : α → List β}
    (h : ∀ x ∈ l, f x = g x) : l.flatMap f = l.flatMap g := by
  induction l with
  | nil => rfl
  | cons x xs ih =>
    rw [List.flatMap_cons, List.flatMap_cons,
      h x (List.mem_cons_self x xs),
      ih (fun y hy => h y (List.mem_cons_of_mem x hy))]

theorem flatMap_if_singleton {α : Type} (q : α → Bool) (l : List α) :
    l.flatMap (fun x => if q x then [x] else []) = l.filter q := by
  induction l with
  | nil => rfl
  | cons x xs ih =>
    rw [List.flatMap_cons, List.filter_cons, ih]
    by_cases hx : q x <;> simp [hx]

theorem filter_eq_singleton_of_nodup {langs : List String}
    (h : langs.Nodup) (a : String) :
    langs.filter (fun x => x = a) = if a ∈ langs then [a] else [] := by
  induction langs with
  | nil => simp
  | cons x xs ih =>
    have hnd := List.nodup_cons.mp h
    rw [List.filter_cons]
    by_cases hx : x = a
    · subst hx
      have hfilter : xs.filter (fun y => y = x) = [] := by
        rw [ih hnd.2, if_neg hnd.1]
      simp [hfilter]
    · have hax : ¬ a = x := fun h2 => hx h2.symm
      simp [hx, ih hnd.2, List.mem_cons, hax]

/-- C2: when an entry declares a file that is missing on disk (and
every entry carries a `file` key, so no KeyError interferes), the load
still succeeds: the returned workflow list is exactly the valid
entries in order — the bad entry is excluded —, every per-language
bucket only holds returned workflows, one stderr diagnostic names the
bad entry, and every other valid entry is still returned. -/
theorem load_workflows_drops_invalid
    (fs : Path → Bool) (pd : Path) (manifest : List ManifestEntry)
    (e : ManifestEntry) (fv : TomlItem Path)
    (hall : ∀ e2 ∈ manifest, e2.file ≠ none)
    (he : e ∈ manifest) (hfv : e.file = some fv)
    (hmiss : ∃ file ∈ as_list fv, fs (pd ++ file) = false) :
    load_workflows fs pd manifest =
      Except.ok
        ((manifest.filter (entry_valid fs pd)).map (entry_workflow pd),
         build_dict ((manifest.filter (entry_valid fs pd)).map
           (entry_workflow pd)) [],
         (manifest.filter (fun e2 => !entry_valid fs pd e2)).map
           (reject_message fs pd)) ∧
    entry_valid fs pd e = false ∧
    reject_message fs pd e ∈
      (manifest.filter (fun e2 => !entry_valid fs pd e2)).map
        (reject_message fs pd) ∧
    (∀ l wf, wf ∈ dict_get (build_dict
        ((manifest.filter (entry_valid fs pd)).map (entry_workflow pd))
        []) l →
      wf ∈ (manifest.filter (entry_valid fs pd)).map
        (entry_workflow pd)) ∧
    (∀ e2 ∈ manifest, entry_valid fs pd e2 = true →
      entry_workflow pd e2 ∈
        (manifest.filter (entry_valid fs pd)).map (entry_workflow pd)) := by
  have hvalid : entry_valid fs pd e = false := by
    rw [entry_valid, List.all_eq_false]
    rcases hmiss with ⟨file, hfm, hfs⟩
    refine ⟨file, ?_, by simp [hfs]⟩
    simp [entry_files, hfv]
    exact hfm
  refine ⟨?_, hvalid, ?_, ?_, ?_⟩
  · exact load_workflows_aux_ok fs pd manifest [] [] [] hall
  · exact List.mem_map.mpr
      ⟨e, List.mem_filter.mpr ⟨he, by simp [hvalid]⟩, rfl⟩
  · intro l wf hwf
    have hb := dict_get_build_dict l
      ((manifest.filter (entry_valid fs pd)).map (entry_workflow pd)) []
    rw [hb] at hwf
    have hnil : dict_get [] l = [] := rfl
    rw [hnil, List.nil_append] at hwf
    rcases List.mem_flatMap.mp hwf with ⟨wf2, hwf2, hin⟩
    rcases List.mem_map.mp hin with ⟨_, _, heq⟩
    rwa [← heq]
  · intro e2 he2 hv2
    exact List.mem_map.mpr ⟨e2, List.mem_filter.mpr ⟨he2, hv2⟩, rfl⟩

/-- A sample filesystem for witnesses: only the file `g.yml` exists. -/
def fs_sample : Path → Bool := fun p => decide (p = ["g.yml"])

/-- A sample manifest entry whose single declared file exists. -/
def good_sample : ManifestEntry :=
  ⟨"good", some (TomlItem.scalar ["g.yml"]), none⟩

/-- A sample manifest entry declaring a missing file. -/
def bad_sample : ManifestEntry :=
  ⟨"bad", some (TomlItem.list [["missing.yml"]]),
   some (TomlItem.scalar "python")⟩

/-- A sample manifest with one valid and one invalid entry. -/
def manifest_sample : List ManifestEntry := [good_sample, bad_sample]

/-- Witness for C2: the diagnostic for the invalid sample entry is on
the returned stderr list. -/
theorem load_workflows_drops_invalid_witness :
    reject_message fs_sample [] bad_sample ∈
      (manifest_sample.filter
          (fun e2 => !entry_valid fs_sample [] e2)).map
        (reject_message fs_sample []) :=
  (load_workflows_drops_invalid fs_sample [] manifest_sample bad_sample
    (TomlItem.list [["missing.yml"]]) (by decide) (by decide) rfl
    (by decide)).2.2.1

/-- C7: the returned workflow list is the manifest-ordered map of the
valid entries, and every language bucket of the returned index lists
exactly the returned workflows that declare the tag, in the same
relative order (stated for entries with duplicate-free language lists
and with a `file` key, so that the load succeeds). -/
theorem load_workflows_order
    (fs : Path → Bool) (pd : Path) (manifest : List ManifestEntry)
    (hall : ∀ e ∈ manifest, e.file ≠ none)
    (hnd : ∀ e ∈ manifest, (entry_languages e).Nodup) :
    load_workflows fs pd manifest =
      Except.ok
        ((manifest.filter (entry_valid fs pd)).map (entry_workflow pd),
         build_dict ((manifest.filter (entry_valid fs pd)).map
           (entry_workflow pd)) [],
         (manifest.filter (fun e2 => !entry_valid fs pd e2)).map
           (reject_message fs pd)) ∧
    ∀ l, dict_get (build_dict
        ((manifest.filter (entry_valid fs pd)).map (entry_workflow pd))
        []) l =
      ((manifest.filter (entry_valid fs pd)).map
        (entry_workflow pd)).filter
        (fun wf => decide (l ∈ wf.languages)) := by
  refine ⟨load_workflows_aux_ok fs pd manifest [] [] [] hall, ?_⟩
  intro l
  have hb := dict_get_build_dict l
    ((manifest.filter (entry_valid fs pd)).map (entry_workflow pd)) []
  rw [hb]
  have hnil : dict_get [] l = [] := rfl
  rw [hnil, List.nil_append]
  have hcong : ∀ wf ∈ (manifest.filter (entry_valid fs pd)).map
      (entry_workflow pd),
      ((wf.languages.filter (fun x => x = l)).map (fun _ => wf)) =
        (if decide (l ∈ wf.languages) then [wf] else []) := by
    intro wf hwf
    rcases List.mem_map.mp hwf with ⟨e2, he2, heq⟩
    have hnd2 : wf.languages.Nodup := by
      rw [← heq]
      exact hnd e2 (List.mem_filter.mp he2).1
    rw [filter_eq_singleton_of_nodup hnd2 l]
    by_cases hl : l ∈ wf.languages <;> simp [hl]
  rw [flatMap_congr_mem hcong]
  exact flatMap_if_singleton
    (fun wf : Workflow => decide (l ∈ wf.languages)) _

/-- Witness for C7 at the sample manifest: the wildcard bucket equals
the filtered returned list. -/
theorem load_workflows_order_witness :
    dict_get (build_dict
        ((manifest_sample.filter (entry_valid fs_sample [])).map
          (entry_workflow [])) []) "*" =
      ((manifest_sample.filter (entry_valid fs_sample [])).map
        (entry_workflow [])).filter
        (fun wf => decide ("*" ∈ wf.languages)) :=
  (load_workflows_order fs_sample [] manifest_sample (by decide)
    (by decide)).2 "*"

/-- C4 counterexample: a manifest whose second entry has no `file` key
makes the whole load abort with a KeyError, so the valid first entry
is not returned either — per-entry isolation does not hold for a
missing `file` key. -/
theorem load_workflows_missing_key_counterexample :
    load_workflows (fun _ => true) []
      [⟨"good", some (TomlItem.scalar ["g.yml"]), none⟩,
       ⟨"bad", none, some (TomlItem.scalar "python")⟩] =
      Except.error "KeyError: bad" := by
  rfl

/-- C4 amended: an entry whose body omits the `file` key is not
handled per-entry: the `as_list` normalization of `file` sits before
the `try` block, so `load_workflows` aborts the whole load with a
KeyError whenever any entry lacks `file`; only failures raised inside
the `try` (missing files on disk) are local to the entry. -/
theorem load_workflows_missing_key_aborts
    (fs : Path → Bool) (pd : Path) (manifest : List ManifestEntry)
    (e : ManifestEntry) (he : e ∈ manifest) (hf : e.file = none) :
    ∃ msg, load_workflows fs pd manifest = Except.error msg :=
  load_workflows_aux_error fs pd manifest [] [] [] e he hf

/-- Witness for the amended C4 at a concrete one-entry manifest. -/
theorem load_workflows_missing_key_aborts_witness :
    ∃ msg, load_workflows (fun _ => true) []
      [⟨"solo", none, none⟩] = Except.error msg :=
  load_workflows_missing_key_aborts (fun _ => true) []
    [⟨"solo", none, none⟩] ⟨"solo", none, none⟩ (by decide) rfl

end Gwm
